import Mathlib

/-!
Verification of the command-resolution and autocompletion core of an
interactive shell (a command tree with required and optional subcommands,
alias resolution, a resolver `FindCmd`, a validator `IsValid`, a help
renderer `HelpText`, and a completion entry point `Do`).

The Go code is embedded shallowly:
* `Cmd` mirrors the Go struct `Cmd`; the Go maps `children` and
  `optionalChildren` (string key to node) become association lists
  `List (String × Cmd)`; map insertion replaces the entry with the same
  key, map deletion filters it out, map lookup is first-match.
* The field `CompleterWithPrefix` of the source is called
  `completerWithPref` here.
* Go's `map[*Cmd]string` (pointer-keyed) becomes an association list
  keyed by the node; since all keys inserted by `FindCmd` come from one
  `optionalChildren` map of a single node, key identity is modelled by
  name equality.
* The completion routine dereferences the matched command, which could in
  principle be nil; this is modelled by an `Option` result, with `none`
  standing for the nil-pointer dereference.
-/

namespace Ishell

/-- A shell command node, mirroring the Go struct `Cmd` of `command.go`:
name, aliases, one-line help, long help, plain completer, prefix-aware
completer, required children and optional children. -/
inductive Cmd where
  | mk : String → List String → String → String →
      Option (List String → List String) →
      Option (String → List String → List String) →
      List (String × Cmd) → List (String × Cmd) → Cmd

def Cmd.Name : Cmd → String
  | .mk n _ _ _ _ _ _ _ => n

def Cmd.Aliases : Cmd → List String
  | .mk _ a _ _ _ _ _ _ => a

def Cmd.Help : Cmd → String
  | .mk _ _ h _ _ _ _ _ => h

def Cmd.LongHelp : Cmd → String
  | .mk _ _ _ lh _ _ _ _ => lh

def Cmd.Completer : Cmd → Option (List String → List String)
  | .mk _ _ _ _ co _ _ _ => co

def Cmd.completerWithPref : Cmd → Option (String → List String → List String)
  | .mk _ _ _ _ _ cp _ _ => cp

def Cmd.children : Cmd → List (String × Cmd)
  | .mk _ _ _ _ _ _ ch _ => ch

def Cmd.optionalChildren : Cmd → List (String × Cmd)
  | .mk _ _ _ _ _ _ _ oc => oc

/-- Go map read `m[name]`: first entry with the given key. -/
def lookupStr : List (String × Cmd) → String → Option Cmd
  | [], _ => none
  | (k, v) :: rest, name => if k = name then some v else lookupStr rest name

/-- Go map write `m[k] = v`: replace the entry with key `k`, else append. -/
def mapSet : List (String × Cmd) → String → Cmd → List (String × Cmd)
  | [], k, v => [(k, v)]
  | (k', v') :: rest, k, v =>
      if k' = k then (k, v) :: rest else (k', v') :: mapSet rest k v

/-- `AddCmd` of `command.go`: insert `cmd` into `children` keyed by its
name (a nil map is allocated on demand; the empty list plays that role). -/
def Cmd.addCmd : Cmd → Cmd → Cmd
  | .mk n a h lh co cp ch oc, cmd => .mk n a h lh co cp (mapSet ch cmd.Name cmd) oc

/-- `AddOptionalCmd` of `command.go`: insert `cmd` into `optionalChildren`
keyed by its name. -/
def Cmd.addOptionalCmd : Cmd → Cmd → Cmd
  | .mk n a h lh co cp ch oc, cmd => .mk n a h lh co cp ch (mapSet oc cmd.Name cmd)

/-- `DeleteCmd` of `command.go`: `delete(c.children, name)` removes the
entry keyed exactly `name` from `children`. -/
def Cmd.deleteCmd : Cmd → String → Cmd
  | .mk n a h lh co cp ch oc, name => .mk n a h lh co cp (ch.filter (fun p => p.1 != name)) oc

/-- The alias scan of `findChildCmd`: the first entry whose value lists
`name` among its aliases. -/
def aliasScan : List (String × Cmd) → String → Option Cmd
  | [], _ => none
  | (_, cmd) :: rest, name =>
      if name ∈ cmd.Aliases then some cmd else aliasScan rest name

/-- `findChildCmd` of `command.go`: exact-name match in `children` first,
then the alias scan. -/
def Cmd.findChildCmd (c : Cmd) (name : String) : Option Cmd :=
  match lookupStr c.children name with
  | some cmd => some cmd
  | none => aliasScan c.children name

/-- `findOptionalChildCmd` of `command.go`: exact-name match in
`optionalChildren` first, then the alias scan. -/
def Cmd.findOptionalChildCmd (c : Cmd) (name : String) : Option Cmd :=
  match lookupStr c.optionalChildren name with
  | some cmd => some cmd
  | none => aliasScan c.optionalChildren name

/-- The required-command loop of `FindCmd`: walk the words; on a match
descend into the child, record it, and set the remaining args to the
suffix after the matched word; otherwise keep scanning.  Returns the
final node context, the matched command, and the remaining args. -/
def findLoop (c : Cmd) (cmd : Option Cmd) (remArgs : List String) :
    List String → Cmd × Option Cmd × List String
  | [] => (c, cmd, remArgs)
  | arg :: rest =>
      match c.findChildCmd arg with
      | some cmd1 => findLoop cmd1 (some cmd1) rest rest
      | none => findLoop c cmd remArgs rest

/-- Write into the pointer-keyed Go map `map[*Cmd]string`; key identity is
name equality (all keys come from one `optionalChildren` map). -/
def mapInsert : List (Cmd × String) → Cmd → String → List (Cmd × String)
  | [], k, v => [(k, v)]
  | (k', v') :: rest, k, v =>
      if k'.Name = k.Name then (k', v) :: rest else (k', v') :: mapInsert rest k v

/-- The optional-command loop of `FindCmd`: walk the remaining args
against `c.optionalChildren`; an optional-command token closes out the
previously open optional command with its pending value and opens a new
one; any other token becomes the pending value; at the end the open
optional command is closed out. -/
def optLoop (c : Cmd) : Option Cmd → List (Cmd × String) → String →
    List String → List (Cmd × String)
  | optCmd, m, optArgs, [] =>
      match optCmd with
      | some oc => mapInsert m oc optArgs
      | none => m
  | optCmd, m, optArgs, arg :: rest =>
      match c.findOptionalChildCmd arg with
      | some cmd1 =>
          let m' := match optCmd with
            | some oc => mapInsert m oc optArgs
            | none => m
          optLoop c (some cmd1) m' "" rest
      | none => optLoop c optCmd m arg rest

/-- `FindCmd` of `command.go`: the required-command walk followed by the
optional-command walk over the remaining args; returns the matched
command, the optional-command map and the remaining args. -/
def Cmd.FindCmd (c : Cmd) (args : List String) :
    Option Cmd × List (Cmd × String) × List String :=
  match findLoop c none [] args with
  | (c', cmd, remArgs) => (cmd, optLoop c' none [] "" remArgs, remArgs)

/-- The loop of `FindOptionalCmd`: descend while each word matches an
optional child; stop at the first non-matching word. -/
def findOptLoop (c : Cmd) (cmd : Option Cmd) :
    List String → Option Cmd × List String
  | [] => (cmd, [])
  | arg :: rest =>
      match c.findOptionalChildCmd arg with
      | some cmd1 => findOptLoop cmd1 (some cmd1) rest
      | none => (cmd, arg :: rest)

/-- `FindOptionalCmd` of `command.go`. -/
def Cmd.FindOptionalCmd (c : Cmd) (args : List String) : Option Cmd × List String :=
  findOptLoop c none args

/-- `IsValid` of `command.go`: with no plain completer, return
`(false, error)`; otherwise call the completer with no arguments and
test membership of `argValue`.  The Go pair `(bool, error)` is modelled
as `Bool × Option String`. -/
def Cmd.IsValid (c : Cmd) (argValue : String) : Bool × Option String :=
  match c.Completer with
  | none => (false, some "Completer must be specified for cmd")
  | some f =>
      let values := f []
      let valid := values.foldl (fun acc completedValue =>
        if argValue = completedValue then true else acc) false
      (valid, none)

/-! ### Sorting of children (`cmdSorter` and `sort.Sort` of `command.go`) -/

/-- The order used by `cmdSorter.Less`: comparison of the `Name` fields. -/
def nameLe (a b : Cmd) : Prop := a.Name ≤ b.Name

instance : DecidableRel nameLe := fun a b =>
  inferInstanceAs (Decidable (a.Name ≤ b.Name))

/-- Ordered insertion into a name-sorted list of nodes. -/
def insertByName (a : Cmd) : List Cmd → List Cmd
  | [] => [a]
  | b :: l => if a.Name ≤ b.Name then a :: b :: l else b :: insertByName a l

/-- `sort.Sort(cmdSorter(cmds))` of `command.go`: sort nodes by name.
(`sort.Sort` is an arbitrary comparison sort; any by-name sort is a
faithful model because the names of map values are the distinct map
keys.) -/
def sortByName : List Cmd → List Cmd
  | [] => []
  | a :: l => insertByName a (sortByName l)

/-- `Children` of `command.go`: the values of `children`, sorted by name. -/
def Cmd.Children (c : Cmd) : List Cmd := sortByName (c.children.map Prod.snd)

/-- `OptionalChildren` of `command.go`: the values of `optionalChildren`,
sorted by name. -/
def Cmd.OptionalChildren (c : Cmd) : List Cmd :=
  sortByName (c.optionalChildren.map Prod.snd)

/-! ### Help rendering (`hasSubcommand`, `hasOptionalSubcommands`,
`HelpText` of `command.go`) -/

/-- `hasSubcommand` of `command.go`. -/
def Cmd.hasSubcommand (c : Cmd) : Bool :=
  if 1 < c.children.length then true
  else if (lookupStr c.children "help").isNone then decide (0 < c.children.length)
  else false

/-- `hasOptionalSubcommands` of `command.go` (note the source tests the
length of `OptionalChildren()` first, then the map). -/
def Cmd.hasOptionalSubcommands (c : Cmd) : Bool :=
  if 1 < c.OptionalChildren.length then true
  else if (lookupStr c.optionalChildren "help").isNone then
    decide (0 < c.optionalChildren.length)
  else false

/-- The header part of `HelpText`: `p(...)` writes a blank line and then
its arguments followed by a newline. -/
def headerText (c : Cmd) : String :=
  if c.LongHelp ≠ "" then "\n" ++ c.LongHelp ++ "\n"
  else if c.Help ≠ "" then "\n" ++ c.Help ++ "\n"
  else if c.Name ≠ "" then "\n" ++ c.Name ++ " has no help\n"
  else ""

/-- The `text/tabwriter` output for the row format of `HelpText`
(a tab, the name, three tabs, the help, a newline; minwidth 0, tabwidth 4,
padding 2, padchar space): column 0 and the two empty middle columns are
two spaces wide, the name column is padded to the longest name plus two,
and the help cell is terminal (written as is). -/
def renderTable (rows : List (String × String)) : String :=
  let w := rows.foldl (fun m r => max m r.1.length) 0
  String.join (rows.map (fun r =>
    "  " ++ r.1 ++ String.mk (List.replicate (w + 2 - r.1.length) ' ') ++
      "    " ++ r.2 ++ "\n"))

/-- The "Commands:" section of `HelpText`: present exactly when
`hasSubcommand` holds. -/
def commandsSectionText (c : Cmd) : String :=
  if c.hasSubcommand then
    "\nCommands:\n" ++ renderTable (c.Children.map (fun n => (n.Name, n.Help))) ++ "\n"
  else ""

/-- The "Optional Commands:" section of `HelpText`: present exactly when
`hasOptionalSubcommands` holds. -/
def optionalSectionText (c : Cmd) : String :=
  if c.hasOptionalSubcommands then
    "\nOptional Commands:\n" ++
      renderTable (c.OptionalChildren.map (fun n => (n.Name, n.Help))) ++ "\n"
  else ""

/-- `HelpText` of `command.go`: the header, then the required-children
section, then the optional-children section, written in order into one
buffer. -/
def Cmd.HelpText (c : Cmd) : String :=
  headerText c ++ commandsSectionText c ++ optionalSectionText c

/-! ### The completion routine (`iCompleter.Do` and `iCompleter.getWords`
of the completer source file) -/

/-- `iCompleter`: the root command and the externally supplied disabled
predicate (modelled by its value, `none` standing for a nil function). -/
structure ICompleter where
  cmd : Cmd
  disabled : Option Bool

/-- Outcome of the loop over the optional-command map in `getWords`:
an early `return`, a normal fall-through with the accumulator `s`, or a
nil-pointer dereference of the matched command. -/
inductive GwLoopOut where
  | early (r : List String)
  | done (s : List String)
  | npe

/-- The loop of `getWords` over the optional-command map: for each captured
optional command whose value is not valid, delegate to its prefix-aware
completer, else to its plain completer, else return after appending the
first of its children names, else append all of the matched command's
optional children names and continue.  Dereferencing a nil matched command
is `npe`. -/
def gwLoop (cmd : Option Cmd) (pfx : String) :
    List (Cmd × String) → List String → GwLoopOut
  | [], s => .done s
  | (optCmd, value) :: rest, s =>
      if (optCmd.IsValid value).1 then gwLoop cmd pfx rest s
      else
        match optCmd.completerWithPref with
        | some f => .early (f pfx [value])
        | none =>
            match optCmd.Completer with
            | some f => .early (f [value])
            | none =>
                match optCmd.children with
                | (k, _) :: _ => .early (s ++ [k])
                | [] =>
                    match cmd with
                    | none => .npe
                    | some cm =>
                        gwLoop cmd pfx rest (s ++ cm.optionalChildren.map Prod.fst)

/-- `getWords` of the completer: resolve the words with `FindCmd`, run the
optional-command loop, then fall back to the effective command's
prefix-aware completer, plain completer, or the names of its required and
optional children.  `none` is the nil-pointer dereference. -/
def getWords (root : Cmd) (pfx : String) (w : List String) :
    Option (List String) :=
  match root.FindCmd w with
  | (cmd, optCmdValueMap, args) =>
      match gwLoop cmd pfx optCmdValueMap [] with
      | .npe => none
      | .early r => some r
      | .done s =>
          let ca : Cmd × List String :=
            match cmd with
            | none => (root, w)
            | some cm => (cm, args)
          match ca.1.completerWithPref with
          | some f => some (f pfx ca.2)
          | none =>
              match ca.1.Completer with
              | some f => some (f ca.2)
              | none =>
                  some (s ++ ca.1.children.map Prod.fst ++
                    ca.1.optionalChildren.map Prod.fst)

/-- `strings.HasPrefix`: the characters of `pfx` are a prefix of those of
`w`. -/
def hasPref (w pfx : String) : Bool := pfx.data.isPrefixOf w.data

/-- `strings.TrimPrefix`: drop the prefix when present, else return the
string unchanged. -/
def trimPref (w pfx : String) : String :=
  if hasPref w pfx then String.mk (w.data.drop pfx.data.length) else w

/-- Helper for `strings.Fields`: split the characters on whitespace runs,
accumulating the current field reversed. -/
def fieldsAux : List Char → List Char → List String
  | [], acc => if acc = [] then [] else [String.mk acc.reverse]
  | c :: rest, acc =>
      if c = ' ' ∨ c = '\t' ∨ c = '\n' then
        if acc = [] then fieldsAux rest []
        else String.mk acc.reverse :: fieldsAux rest []
      else fieldsAux rest (c :: acc)

/-- `strings.Fields`: split on whitespace, dropping empty fields. -/
def fieldsSplit (s : String) : List String := fieldsAux s.data []

/-- The suggestion post-processing of `Do`: keep the candidates that start
with the in-progress token, trim that token from each, and collapse a
unique exact match to a single space. -/
def doFilter (pfx : String) (cWords : List String) : List String :=
  let suggestions := (cWords.filter (fun w => hasPref w pfx)).map
    (fun w => trimPref w pfx)
  if suggestions.length = 1 ∧ pfx ≠ "" ∧ suggestions.getD 0 "" = "" then [" "]
  else suggestions

/-- `Do` of the completer: when disabled return no suggestions and the
line length; otherwise tokenize (an external splitter with the
whitespace-split fallback), take the last word as the in-progress token
when the cursor follows a non-space, compute the candidates with
`getWords`, filter and trim them, and return them with the token length.
`none` propagates the nil-pointer dereference of `getWords`. -/
def Do (ic : ICompleter) (split : String → Option (List String))
    (line : List Char) (pos : Nat) : Option (List String × Nat) :=
  if ic.disabled.getD false then some ([], line.length)
  else
    let words := match split (String.mk line) with
      | some w => w
      | none => fieldsSplit (String.mk line)
    let hasPfx : Bool := 0 < words.length && 0 < pos && line.getD (pos - 1) ' ' != ' '
    let pfx := if hasPfx then words.getLastD "" else ""
    let cw := if hasPfx then getWords ic.cmd pfx words.dropLast
      else getWords ic.cmd "" words
    match cw with
    | none => none
    | some cWords => some (doFilter pfx cWords, pfx.length)

end Ishell

namespace Ishell

/-! ### Concrete nodes for the C1 scenario -/

def verboseCmd : Cmd := .mk "--verbose" [] "" "" none none [] []

def userCmd : Cmd := .mk "user" ["u"] "" "" none none [] [("--verbose", verboseCmd)]

def rootC1 : Cmd := .mk "" [] "" "" none none [("user", userCmd)] []

/-- C1: with a root whose required child "user" (alias "u") has the
optional child "--verbose", `FindCmd ["u", "--verbose", "extra"]` returns
the "user" node, the optional map assigning "extra" to the "--verbose"
node, and remaining args `["--verbose", "extra"]`. -/
theorem c1_findCmd_scenario :
    rootC1.FindCmd ["u", "--verbose", "extra"] =
      (some userCmd, [(verboseCmd, "extra")], ["--verbose", "extra"]) := by
  rfl

/-! ### C4: `IsValid` -/

lemma foldl_eq_any (v : String) :
    ∀ (l : List String) (acc : Bool),
      l.foldl (fun acc completedValue =>
        if v = completedValue then true else acc) acc =
        (acc || l.any (fun x => v == x)) := by
  intro l
  induction l with
  | nil => intro acc; simp
  | cons x xs ih =>
      intro acc
      rw [List.foldl_cons, ih, List.any_cons]
      by_cases hx : v = x
      · simp [hx]
      · have hbx : (v == x) = false := beq_eq_false_iff_ne.mpr hx
        simp [hx, hbx]

/-- C4: `IsValid` on a node with no plain completer returns `false`
together with the configuration error; on a node with a plain completer
it returns no error, and `true` exactly when the value is a member of the
list produced by calling the completer with no arguments. -/
theorem c4_isValid (c : Cmd) (v : String) :
    (c.Completer = none →
      c.IsValid v = (false, some "Completer must be specified for cmd")) ∧
    (∀ f, c.Completer = some f →
      (c.IsValid v).2 = none ∧ ((c.IsValid v).1 = true ↔ v ∈ f [])) := by
  constructor
  · intro h
    unfold Cmd.IsValid
    rw [h]
  · intro f hf
    unfold Cmd.IsValid
    rw [hf]
    refine ⟨rfl, ?_⟩
    simp only [foldl_eq_any, Bool.false_or, List.any_eq_true, beq_iff_eq]
    constructor
    · rintro ⟨x, hx, rfl⟩; exact hx
    · intro hv; exact ⟨v, hv, rfl⟩

def noCompleterCmd : Cmd := .mk "--flag" [] "" "" none none [] []

def withCompleterCmd : Cmd :=
  .mk "--mode" [] "" "" (some (fun _ => ["alpha", "beta"])) none [] []

/-- Witness for C4 at two concrete nodes. -/
theorem c4_isValid_witness :
    noCompleterCmd.IsValid "x" =
      (false, some "Completer must be specified for cmd") ∧
    ((withCompleterCmd.IsValid "alpha").1 = true ↔ "alpha" ∈ ["alpha", "beta"]) :=
  ⟨(c4_isValid noCompleterCmd "x").1 rfl,
   ((c4_isValid withCompleterCmd "alpha").2 (fun _ => ["alpha", "beta"]) rfl).2⟩

/-! ### C9: `DeleteCmd` removes by exact name only and is a frame rule -/

lemma lookupStr_filter_ne (name : String) :
    ∀ l : List (String × Cmd),
      lookupStr (l.filter (fun p => p.1 != name)) name = none := by
  intro l
  induction l with
  | nil => rfl
  | cons p rest ih =>
      by_cases hp : p.1 = name
      · simp [List.filter_cons, hp, ih]
      · simp only [List.filter_cons, bne_iff_ne, ne_eq, hp, not_false_eq_true,
          if_true]
        simp [lookupStr, hp, ih]

lemma filter_eq_self_of_lookup_none (name : String) :
    ∀ l : List (String × Cmd), lookupStr l name = none →
      l.filter (fun p => p.1 != name) = l := by
  intro l
  induction l with
  | nil => intro _; rfl
  | cons p rest ih =>
      intro h
      obtain ⟨k, v⟩ := p
      unfold lookupStr at h
      by_cases hk : k = name
      · simp [hk] at h
      · simp only [hk, if_false] at h
        simp [List.filter_cons, hk, ih h]

/-- C9: `DeleteCmd name` removes exactly the required-children entry keyed
`name`: every other required child (including one reachable only via an
alias equal to `name`) survives in place, `optionalChildren` and all other
fields are unchanged, and when no required child is keyed `name` the node
is left entirely unchanged. -/
theorem c9_deleteCmd (c : Cmd) (name : String) :
    (c.deleteCmd name).children = c.children.filter (fun p => p.1 != name) ∧
    (c.deleteCmd name).optionalChildren = c.optionalChildren ∧
    (c.deleteCmd name).Name = c.Name ∧
    (c.deleteCmd name).Aliases = c.Aliases ∧
    (c.deleteCmd name).Help = c.Help ∧
    (c.deleteCmd name).LongHelp = c.LongHelp ∧
    (c.deleteCmd name).Completer = c.Completer ∧
    (c.deleteCmd name).completerWithPref = c.completerWithPref ∧
    lookupStr (c.deleteCmd name).children name = none ∧
    (∀ p ∈ c.children, p.1 ≠ name → p ∈ (c.deleteCmd name).children) ∧
    (lookupStr c.children name = none → c.deleteCmd name = c) := by
  obtain ⟨n, a, h, lh, co, cp, ch, oc⟩ := c
  refine ⟨rfl, rfl, rfl, rfl, rfl, rfl, rfl, rfl, ?_, ?_, ?_⟩
  · exact lookupStr_filter_ne name ch
  · intro p hp hpn
    show p ∈ ch.filter (fun p => p.1 != name)
    exact List.mem_filter.mpr ⟨hp, by simpa using hpn⟩
  · intro hnone
    show Cmd.mk n a h lh co cp (ch.filter (fun p => p.1 != name)) oc = _
    rw [filter_eq_self_of_lookup_none name ch hnone]

def keepC9 : Cmd := .mk "keep" ["gone"] "" "" none none [] []

def goneC9 : Cmd := .mk "gone" [] "" "" none none [] []

def nodeC9 : Cmd :=
  .mk "root" [] "" "" none none [("keep", keepC9), ("gone", goneC9)]
    [("--opt", keepC9)]

/-- Witness for C9: deleting "gone" removes only that entry; the sibling
"keep", which has "gone" as an alias, survives; deleting an absent name is
the identity. -/
theorem c9_deleteCmd_witness :
    lookupStr (nodeC9.deleteCmd "gone").children "gone" = none ∧
    ("keep", keepC9) ∈ (nodeC9.deleteCmd "gone").children ∧
    (nodeC9.deleteCmd "gone").optionalChildren = nodeC9.optionalChildren ∧
    nodeC9.deleteCmd "absent" = nodeC9 :=
  ⟨(c9_deleteCmd nodeC9 "gone").2.2.2.2.2.2.2.2.1,
   (c9_deleteCmd nodeC9 "gone").2.2.2.2.2.2.2.2.2.1 ("keep", keepC9)
     (by simp [nodeC9, Cmd.children]) (by simp),
   (c9_deleteCmd nodeC9 "gone").2.1,
   (c9_deleteCmd nodeC9 "absent").2.2.2.2.2.2.2.2.2.2 rfl⟩

/-! ### C2: the optional walk runs over the remaining args, which are
empty when no word matched a required child -/

lemma findLoop_all_fail :
    ∀ (args : List String) (c : Cmd) (cmd : Option Cmd) (rem : List String),
      (∀ a ∈ args, c.findChildCmd a = none) →
      findLoop c cmd rem args = (c, cmd, rem) := by
  intro args
  induction args with
  | nil => intro c cmd rem _; rfl
  | cons a rest ih =>
      intro c cmd rem h
      have ha : c.findChildCmd a = none := h a (List.mem_cons_self a rest)
      simp only [findLoop, ha]
      exact ih c cmd rem (fun x hx => h x (List.mem_cons_of_mem a hx))

/-- C2 (amended): when no word matches a required child of the node by
name or alias, `FindCmd` returns no matched command, an *empty*
optional-command map and empty remaining args — the optional walk runs
over the remaining-args slice, which is empty in this case, so a word
naming a root optional child is *not* captured. -/
theorem c2_no_required_match (c : Cmd) (args : List String)
    (h : ∀ a ∈ args, c.findChildCmd a = none) :
    c.FindCmd args = (none, [], []) := by
  unfold Cmd.FindCmd
  rw [findLoop_all_fail args c none [] h]
  rfl

def optOnlyChild : Cmd := .mk "--v" [] "" "" none none [] []

def rootC2 : Cmd := .mk "" [] "" "" none none [] [("--v", optOnlyChild)]

/-- Counterexample to C2 as stated: "--v" names a root optional child and
no word matches a required child, yet the optional-command map returned by
`FindCmd ["--v"]` is empty — the word is not captured. -/
theorem c2_counterexample :
    rootC2.findOptionalChildCmd "--v" = some optOnlyChild ∧
    rootC2.findChildCmd "--v" = none ∧
    (rootC2.FindCmd ["--v"]).2.1 = [] :=
  ⟨rfl, rfl, rfl⟩

/-- Witness for the amended C2 at the concrete root. -/
theorem c2_witness :
    rootC2.FindCmd ["--v"] = (none, [], []) :=
  c2_no_required_match rootC2 ["--v"]
    (by
      intro a ha
      rcases List.mem_singleton.mp ha with rfl
      rfl)

/-! ### C3: the children fallback of the completion routine returns after
one name -/

/-- C3 (amended): for an optional command captured with an invalid value
and having neither completer but a non-empty required-children map, the
loop of `getWords` returns immediately after appending the *first* child
name to the accumulator — a single name, not all children names. -/
theorem c3_first_child_only (cmd : Option Cmd) (pfx : String) (oc : Cmd)
    (v : String) (rest : List (Cmd × String)) (s : List String)
    (k : String) (n : Cmd) (restCh : List (String × Cmd))
    (hvalid : (oc.IsValid v).1 = false)
    (hcp : oc.completerWithPref = none)
    (hco : oc.Completer = none)
    (hch : oc.children = (k, n) :: restCh) :
    gwLoop cmd pfx ((oc, v) :: rest) s = .early (s ++ [k]) := by
  simp only [gwLoop, hvalid, hcp, hco, hch]
  rfl

def childX : Cmd := .mk "x" [] "" "" none none [] []

def childY : Cmd := .mk "y" [] "" "" none none [] []

def optC3 : Cmd := .mk "--opt" [] "" "" none none [("x", childX), ("y", childY)] []

def mainC3 : Cmd := .mk "main" [] "" "" none none [] [("--opt", optC3)]

def rootC3 : Cmd := .mk "" [] "" "" none none [("main", mainC3)] []

/-- Counterexample to C3 as stated: the optional command "--opt" has two
children "x" and "y", is captured with the invalid value "bad" and has no
completer; `getWords` returns only `["x"]`, so the child name "y" does not
appear in the result. -/
theorem c3_counterexample :
    getWords rootC3 "" ["main", "--opt", "bad"] = some ["x"] ∧
    optC3.children.map Prod.fst = ["x", "y"] ∧
    "y" ∉ ["x"] :=
  ⟨rfl, rfl, by decide⟩

/-- Witness for the amended C3 at the concrete capture. -/
theorem c3_witness :
    (optC3.IsValid "bad").1 = false ∧
    optC3.completerWithPref = none ∧
    optC3.Completer = none ∧
    optC3.children = ("x", childX) :: [("y", childY)] ∧
    gwLoop (some mainC3) "" [(optC3, "bad")] [] = .early ["x"] :=
  ⟨rfl, rfl, rfl, rfl,
   c3_first_child_only (some mainC3) "" optC3 "bad" [] [] "x" childX
     [("y", childY)] rfl rfl rfl rfl⟩

/-! ### C5: alias resolution versus name resolution in `FindCmd` -/

lemma lookupStr_mem :
    ∀ (l : List (String × Cmd)) (name : String) (v : Cmd),
      lookupStr l name = some v → (name, v) ∈ l := by
  intro l
  induction l with
  | nil => intro name v h; exact absurd h (by simp [lookupStr])
  | cons p rest ih =>
      intro name v h
      obtain ⟨k, w⟩ := p
      unfold lookupStr at h
      by_cases hk : k = name
      · subst hk
        simp only [if_true] at h
        rw [Option.some.inj h]
        exact List.mem_cons_self _ _
      · simp only [hk, if_false] at h
        exact List.mem_cons_of_mem _ (ih name v h)

lemma aliasScan_unique (name : String) (n : Cmd) :
    ∀ l : List (String × Cmd),
      (∃ p ∈ l, name ∈ (Prod.snd p).Aliases) →
      (∀ p ∈ l, name ∈ (Prod.snd p).Aliases → Prod.snd p = n) →
      aliasScan l name = some n := by
  intro l
  induction l with
  | nil => rintro ⟨p, hp, -⟩; exact absurd hp (List.not_mem_nil p)
  | cons q rest ih =>
      rintro ⟨p, hp, hpa⟩ hu
      obtain ⟨k, w⟩ := q
      unfold aliasScan
      by_cases hw : name ∈ w.Aliases
      · simp only [hw, if_true]
        exact congrArg some (hu (k, w) (List.mem_cons_self _ _) hw)
      · simp only [hw, if_false]
        rcases List.mem_cons.mp hp with rfl | hp'
        · exact absurd hpa hw
        · exact ih ⟨p, hp', hpa⟩ (fun q hq => hu q (List.mem_cons_of_mem _ hq))

/-- C5 (amended): if the node's required children contain a node `n` keyed
"a" with aliases `["b"]`, no sibling is keyed "b", and no sibling other
than `n` carries the alias "b", then for every trailing word `x`,
`FindCmd ["b", x]` returns exactly the same matched command,
optional-command map and remaining args as `FindCmd ["a", x]`. -/
theorem c5_alias_equiv_name (root : Cmd) (n : Cmd) (x : String)
    (ha : lookupStr root.children "a" = some n)
    (hal : n.Aliases = ["b"])
    (hb : lookupStr root.children "b" = none)
    (huniq : ∀ p ∈ root.children, "b" ∈ (Prod.snd p).Aliases → Prod.snd p = n) :
    root.FindCmd ["b", x] = root.FindCmd ["a", x] := by
  have hfb : root.findChildCmd "b" = some n := by
    unfold Cmd.findChildCmd
    rw [hb]
    exact aliasScan_unique "b" n root.children
      ⟨("a", n), lookupStr_mem root.children "a" n ha, by simp [hal]⟩ huniq
  have hfa : root.findChildCmd "a" = some n := by
    unfold Cmd.findChildCmd
    rw [ha]
  show (match findLoop root none [] ["b", x] with
    | (c', cmd, remArgs) => (cmd, optLoop c' none [] "" remArgs, remArgs)) =
    (match findLoop root none [] ["a", x] with
    | (c', cmd, remArgs) => (cmd, optLoop c' none [] "" remArgs, remArgs))
  have hlb : findLoop root none [] ["b", x] = findLoop n (some n) [x] [x] := by
    simp only [findLoop, hfb]
  have hla : findLoop root none [] ["a", x] = findLoop n (some n) [x] [x] := by
    simp only [findLoop, hfa]
  rw [hlb, hla]

def aliasedC5 : Cmd := .mk "a" ["b"] "" "" none none [] []

def plainBC5 : Cmd := .mk "b" [] "" "" none none [] []

def rootC5 : Cmd :=
  .mk "" [] "" "" none none [("a", aliasedC5), ("b", plainBC5)] []

/-- Counterexample to C5 as stated: in a tree that also has a required
child keyed "b", the exact-name match takes precedence over the alias, so
`FindCmd ["b", "z"]` and `FindCmd ["a", "z"]` resolve to different
matched commands. -/
theorem c5_counterexample :
    (rootC5.FindCmd ["b", "z"]).1 ≠ (rootC5.FindCmd ["a", "z"]).1 := by
  intro h
  have hb : Option.map Cmd.Name (rootC5.FindCmd ["b", "z"]).1 = some "b" := rfl
  have ha : Option.map Cmd.Name (rootC5.FindCmd ["a", "z"]).1 = some "a" := rfl
  rw [h, ha] at hb
  exact absurd (Option.some.inj hb) (by decide)

def rootC5w : Cmd := .mk "" [] "" "" none none [("a", aliasedC5)] []

/-- Witness for the amended C5 at a collision-free tree. -/
theorem c5_witness :
    rootC5w.FindCmd ["b", "z"] = rootC5w.FindCmd ["a", "z"] :=
  c5_alias_equiv_name rootC5w aliasedC5 "z" rfl rfl rfl
    (by
      intro p hp _
      have : p = ("a", aliasedC5) := List.mem_singleton.mp hp
      rw [this])

/-! ### C7: the "Commands:" section of `HelpText` -/

lemma append_ne_empty_left (a b : String) (h : a.length ≠ 0) : a ++ b ≠ "" := by
  intro he
  apply h
  have hlen := congrArg String.length he
  rw [String.length_append] at hlen
  have h0 : ("" : String).length = 0 := rfl
  omega

lemma hasSubcommand_iff (c : Cmd) :
    c.hasSubcommand = true ↔
      1 < c.children.length ∨ ∃ k n, c.children = [(k, n)] ∧ k ≠ "help" := by
  unfold Cmd.hasSubcommand
  rcases hc : c.children with - | ⟨⟨k, v⟩, tl⟩
  · simp [lookupStr]
  · rcases tl with - | ⟨⟨k2, v2⟩, tl2⟩
    · by_cases hk : k = "help"
      · subst hk
        simp [lookupStr]
      · simp [lookupStr, hk]
    · simp

/-- C7: `HelpText` is the header followed by the "Commands:" section and
the "Optional Commands:" section, and the "Commands:" section is present
(non-empty) exactly when the node has more than one required child, or
exactly one required child whose key is not "help"; with one child keyed
"help", or no children, the section is the empty string. -/
theorem c7_commands_section (c : Cmd) :
    c.HelpText = headerText c ++ commandsSectionText c ++ optionalSectionText c ∧
    (commandsSectionText c ≠ "" ↔
      1 < c.children.length ∨ ∃ k n, c.children = [(k, n)] ∧ k ≠ "help") := by
  refine ⟨rfl, ?_⟩
  rw [← hasSubcommand_iff]
  unfold commandsSectionText
  by_cases hs : c.hasSubcommand = true
  · rw [hs]
    simp only [if_true]
    constructor
    · intro _; trivial
    · intro _
      rw [String.append_assoc]
      exact append_ne_empty_left _ _ (by decide)
  · have hs' : c.hasSubcommand = false := by
      revert hs; cases c.hasSubcommand <;> simp
    rw [hs']
    simp

/-! ### C8: prefix filtering, trimming and the single-space collapse in
`Do` -/

def rootC8a : Cmd :=
  .mk "" [] "" "" (some (fun _ => ["status", "stop", "start"])) none [] []

def icC8a : ICompleter := ⟨rootC8a, none⟩

def rootC8b : Cmd :=
  .mk "" [] "" "" (some (fun _ => ["status"])) none [] []

def icC8b : ICompleter := ⟨rootC8b, none⟩

/-- A tokenizer for the C8 scenarios: plain whitespace splitting that
always succeeds. -/
def splitOk (s : String) : Option (List String) := some (fieldsSplit s)

/-- C8: `Do` post-processes the candidate set by keeping the candidates
that start with the in-progress token, trimming the token from each, and
replacing the result with the single suggestion `[" "]` when exactly one
suggestion remains, the token is non-empty and the survivor trims to the
empty string; in particular candidates `{"status", "stop", "start"}` with
the typed line "st" yield `["atus", "op", "art"]`, and `{"status"}` with
the typed line "status" yields `[" "]`. -/
theorem c8_do_filter :
    (∀ pfx cWords, doFilter pfx cWords =
      (let s := (cWords.filter (fun w => hasPref w pfx)).map
        (fun w => trimPref w pfx)
       if s.length = 1 ∧ pfx ≠ "" ∧ s.getD 0 "" = "" then [" "] else s)) ∧
    Do icC8a splitOk "st".toList 2 = some (["atus", "op", "art"], 2) ∧
    Do icC8b splitOk "status".toList 6 = some ([" "], 6) :=
  ⟨fun _ _ => rfl, rfl, rfl⟩

/-! ### C10: a non-empty optional-command map implies a matched command,
and the completion routine never dereferences a nil matched command -/

lemma findLoop_none_inv :
    ∀ (args : List String) (c : Cmd) (cmd : Option Cmd) (rem : List String),
      (findLoop c cmd rem args).2.1 = none →
      cmd = none ∧ (findLoop c cmd rem args).2.2 = rem := by
  intro args
  induction args with
  | nil => intro c cmd rem h; exact ⟨h, rfl⟩
  | cons a rest ih =>
      intro c cmd rem h
      by_cases hf : ∃ n, c.findChildCmd a = some n
      · obtain ⟨n, hn⟩ := hf
        rw [show findLoop c cmd rem (a :: rest) = findLoop n (some n) rest rest by
          simp only [findLoop, hn]] at h
        exact absurd (ih n (some n) rest h).1 (by simp)
      · have hn : c.findChildCmd a = none := by
          cases hcc : c.findChildCmd a with
          | none => rfl
          | some n => exact absurd ⟨n, hcc⟩ hf
        rw [show findLoop c cmd rem (a :: rest) = findLoop c cmd rem rest by
          simp only [findLoop, hn]] at h ⊢
        exact ih c cmd rem h

lemma findCmd_none_empty (c : Cmd) (w : List String)
    (h : (c.FindCmd w).1 = none) :
    (c.FindCmd w).2.1 = [] ∧ (c.FindCmd w).2.2 = [] := by
  have h' : (findLoop c none [] w).2.1 = none := h
  have hrem : (findLoop c none [] w).2.2 = [] :=
    (findLoop_none_inv w c none [] h').2
  constructor
  · show optLoop (findLoop c none [] w).1 none [] ""
      (findLoop c none [] w).2.2 = []
    rw [hrem]
    rfl
  · exact hrem

lemma gwLoop_some_ne_npe (cm : Cmd) (pfx : String) :
    ∀ (entries : List (Cmd × String)) (s : List String),
      gwLoop (some cm) pfx entries s ≠ .npe := by
  intro entries
  induction entries with
  | nil => intro s h; exact GwLoopOut.noConfusion h
  | cons p rest ih =>
      intro s
      obtain ⟨oc, v⟩ := p
      simp only [gwLoop]
      by_cases hv : (oc.IsValid v).1 = true
      · simp only [hv, if_true]
        exact ih s
      · have hv' : (oc.IsValid v).1 = false := by
          revert hv; cases (oc.IsValid v).1 <;> simp
        simp only [hv', Bool.false_eq_true, if_false]
        cases oc.completerWithPref with
        | some f => intro h; exact GwLoopOut.noConfusion h
        | none =>
            cases oc.Completer with
            | some f => intro h; exact GwLoopOut.noConfusion h
            | none =>
                cases oc.children with
                | cons q tl => intro h; exact GwLoopOut.noConfusion h
                | nil => exact ih _

/-- C10: whenever `FindCmd` returns a non-empty optional-command map its
matched command is not `none`, and consequently `getWords` never reaches
the nil-pointer dereference of the matched command (`none` result). -/
theorem c10_no_nil_deref (c : Cmd) (args : List String) (pfx : String)
    (w : List String) :
    ((c.FindCmd args).2.1 ≠ [] → (c.FindCmd args).1 ≠ none) ∧
    getWords c pfx w ≠ none := by
  constructor
  · intro hne hnone
    exact hne (findCmd_none_empty c args hnone).1
  · unfold getWords
    rcases hF : c.FindCmd w with ⟨cmd, optMap, args'⟩
    cases cmd with
    | some cm =>
        simp only
        cases hg : gwLoop (some cm) pfx optMap [] with
        | npe => exact absurd hg (gwLoop_some_ne_npe cm pfx optMap [])
        | early r => simp
        | done s =>
            simp only
            cases (cm.completerWithPref) with
            | some f => simp
            | none =>
                cases (cm.Completer) with
                | some f => simp
                | none => simp
    | none =>
        have hmap : optMap = [] := by
          have := (findCmd_none_empty c w (by rw [hF])).1
          rw [hF] at this
          exact this
        subst hmap
        simp only [gwLoop]
        cases (c.completerWithPref) with
        | some f => simp
        | none =>
            cases (c.Completer) with
            | some f => simp
            | none => simp

def optC10 : Cmd := .mk "--o" [] "" "" none none [] []

def mainC10 : Cmd := .mk "m" [] "" "" none none [] [("--o", optC10)]

def rootC10 : Cmd := .mk "" [] "" "" none none [("m", mainC10)] []

/-! ### C6: `Children` and `OptionalChildren` are sorted by name,
independent of insertion order -/

/-- A tree-mutation step: `AddCmd`, `AddOptionalCmd` or `DeleteCmd`. -/
inductive Op where
  | addC (cmd : Cmd)
  | addO (cmd : Cmd)
  | delC (name : String)

def applyOp (c : Cmd) : Op → Cmd
  | .addC cmd => c.addCmd cmd
  | .addO cmd => c.addOptionalCmd cmd
  | .delC name => c.deleteCmd name

def applyOps (c : Cmd) : List Op → Cmd
  | [] => c
  | op :: rest => applyOps (applyOp c op) rest

/-- The Go-map invariant of a child map: keys are distinct and each entry
is keyed by its node's name (`AddCmd` keys by `cmd.Name`). -/
def keyedByName (l : List (String × Cmd)) : Prop :=
  (l.map Prod.fst).Nodup ∧ ∀ p ∈ l, p.1 = (Prod.snd p).Name

/-- Both child maps of a node satisfy the Go-map invariant. -/
def WF (c : Cmd) : Prop := keyedByName c.children ∧ keyedByName c.optionalChildren

lemma mapSet_keys_sub (k : String) (v : Cmd) :
    ∀ (l : List (String × Cmd)) (x : String),
      x ∈ (mapSet l k v).map Prod.fst → x ∈ l.map Prod.fst ∨ x = k := by
  intro l
  induction l with
  | nil =>
      intro x hx
      right
      simpa [mapSet] using hx
  | cons p t ih =>
      intro x hx
      obtain ⟨k', v'⟩ := p
      by_cases hk : k' = k
      · subst hk
        simp only [mapSet, if_true, List.map_cons, List.mem_cons] at hx
        rcases hx with rfl | hx
        · right; rfl
        · left; exact List.mem_cons_of_mem _ hx
      · simp only [mapSet, hk, if_false, List.map_cons, List.mem_cons] at hx
        rcases hx with rfl | hx
        · left; exact List.mem_cons_self _ _
        · rcases ih x hx with h | h
          · left; exact List.mem_cons_of_mem _ h
          · right; exact h

lemma keyedByName_mapSet (k : String) (v : Cmd) (hv : k = v.Name) :
    ∀ l : List (String × Cmd), keyedByName l → keyedByName (mapSet l k v) := by
  intro l
  induction l with
  | nil =>
      intro _
      refine ⟨by simp [mapSet], ?_⟩
      intro p hp
      rcases List.mem_singleton.mp hp with rfl
      exact hv
  | cons p t ih =>
      rintro ⟨hnd, hpairs⟩
      obtain ⟨k', v'⟩ := p
      rw [List.map_cons, List.nodup_cons] at hnd
      by_cases hk : k' = k
      · subst hk
        refine ⟨?_, ?_⟩
        · simp only [mapSet, if_true, List.map_cons, List.nodup_cons]
          exact hnd
        · intro q hq
          simp only [mapSet, if_true, List.mem_cons] at hq
          rcases hq with rfl | hq
          · exact hv
          · exact hpairs q (List.mem_cons_of_mem _ hq)
      · have iht := ih ⟨hnd.2, fun q hq => hpairs q (List.mem_cons_of_mem _ hq)⟩
        refine ⟨?_, ?_⟩
        · simp only [mapSet, hk, if_false, List.map_cons, List.nodup_cons]
          refine ⟨?_, iht.1⟩
          intro hmem
          rcases mapSet_keys_sub k v t k' hmem with h | h
          · exact hnd.1 h
          · exact hk h
        · intro q hq
          simp only [mapSet, hk, if_false, List.mem_cons] at hq
          rcases hq with rfl | hq
          · exact hpairs (k', v') (List.mem_cons_self _ _)
          · exact iht.2 q hq

lemma keyedByName_filter (p : String × Cmd → Bool) (l : List (String × Cmd))
    (h : keyedByName l) : keyedByName (l.filter p) :=
  ⟨(List.Sublist.map Prod.fst (List.filter_sublist l)).nodup h.1,
   fun q hq => h.2 q (List.mem_of_mem_filter hq)⟩

lemma WF_applyOp (c : Cmd) (op : Op) (h : WF c) : WF (applyOp c op) := by
  obtain ⟨n, a, hh, lh, co, cp, ch, oc⟩ := c
  cases op with
  | addC cmd => exact ⟨keyedByName_mapSet cmd.Name cmd rfl ch h.1, h.2⟩
  | addO cmd => exact ⟨h.1, keyedByName_mapSet cmd.Name cmd rfl oc h.2⟩
  | delC name => exact ⟨keyedByName_filter _ ch h.1, h.2⟩

lemma WF_applyOps : ∀ (ops : List Op) (c : Cmd), WF c → WF (applyOps c ops) := by
  intro ops
  induction ops with
  | nil => intro c h; exact h
  | cons op rest ih => intro c h; exact ih (applyOp c op) (WF_applyOp c op h)

/-- Strict name order (the `Less` of `cmdSorter`). -/
def nameLt (a b : Cmd) : Prop := a.Name < b.Name

lemma insertByName_perm (a : Cmd) :
    ∀ l : List Cmd, (insertByName a l).Perm (a :: l) := by
  intro l
  induction l with
  | nil => exact List.Perm.refl _
  | cons b t ih =>
      unfold insertByName
      by_cases hab : a.Name ≤ b.Name
      · rw [if_pos hab]
      · rw [if_neg hab]
        exact (ih.cons b).trans (List.Perm.swap a b t)

lemma sortByName_perm : ∀ l : List Cmd, (sortByName l).Perm l := by
  intro l
  induction l with
  | nil => exact List.Perm.refl _
  | cons a t ih =>
      exact (insertByName_perm a (sortByName t)).trans (ih.cons a)

lemma pairwise_insertByName (a : Cmd) :
    ∀ l : List Cmd, l.Pairwise nameLe → (insertByName a l).Pairwise nameLe := by
  intro l
  induction l with
  | nil => intro _; simp [insertByName, List.pairwise_cons]
  | cons b t ih =>
      intro h
      obtain ⟨hb, ht⟩ := List.pairwise_cons.mp h
      unfold insertByName
      by_cases hab : a.Name ≤ b.Name
      · rw [if_pos hab]
        refine List.pairwise_cons.mpr ⟨?_, h⟩
        intro x hx
        rcases List.mem_cons.mp hx with rfl | hx'
        · exact hab
        · exact le_trans hab (hb x hx')
      · rw [if_neg hab]
        have hba : b.Name ≤ a.Name := le_of_not_le hab
        refine List.pairwise_cons.mpr ⟨?_, ih ht⟩
        intro x hx
        have hx2 := List.mem_cons.mp ((insertByName_perm a t).mem_iff.mp hx)
        rcases hx2 with rfl | hx'
        · exact hba
        · exact hb x hx'

lemma sortByName_pairwise : ∀ l : List Cmd, (sortByName l).Pairwise nameLe := by
  intro l
  induction l with
  | nil => exact List.Pairwise.nil
  | cons a t ih => exact pairwise_insertByName a (sortByName t) ih

lemma pairwise_lt_of_le_nodup (l : List Cmd) (hle : l.Pairwise nameLe)
    (hn : (l.map Cmd.Name).Nodup) : l.Pairwise nameLt := by
  have hne : l.Pairwise (fun a b => a.Name ≠ b.Name) := List.pairwise_map.mp hn
  exact (hle.and hne).imp (fun h => lt_of_le_of_ne h.1 h.2)

lemma eq_of_perm_strictSorted :
    ∀ l₁ l₂ : List Cmd, l₁.Perm l₂ → l₁.Pairwise nameLt →
      l₂.Pairwise nameLt → l₁ = l₂ := by
  intro l₁
  induction l₁ with
  | nil => intro l₂ hp _ _; exact hp.nil_eq
  | cons a t ih =>
      intro l₂ hp h₁ h₂
      cases l₂ with
      | nil => exact List.noConfusion hp.symm.nil_eq
      | cons b t' =>
          obtain ⟨ha1, ht1⟩ := List.pairwise_cons.mp h₁
          obtain ⟨hb2, ht2⟩ := List.pairwise_cons.mp h₂
          have hab : a = b := by
            by_contra hne
            have ha' : a ∈ t' := by
              rcases List.mem_cons.mp (hp.subset (List.mem_cons_self a t)) with
                h | h
              · exact absurd h hne
              · exact h
            have hb' : b ∈ t := by
              rcases List.mem_cons.mp
                (hp.symm.subset (List.mem_cons_self b t')) with h | h
              · exact absurd h.symm hne
              · exact h
            exact lt_asymm (ha1 b hb') (hb2 a ha')
          subst hab
          rw [ih t' hp.cons_inv ht1 ht2]

lemma values_names_eq_keys :
    ∀ l : List (String × Cmd), (∀ p ∈ l, p.1 = (Prod.snd p).Name) →
      (l.map Prod.snd).map Cmd.Name = l.map Prod.fst := by
  intro l
  induction l with
  | nil => intro _; rfl
  | cons p t ih =>
      intro h
      simp only [List.map_cons, List.cons.injEq]
      exact ⟨(h p (List.mem_cons_self _ _)).symm,
        ih (fun q hq => h q (List.mem_cons_of_mem _ hq))⟩

lemma sort_values_eq_of_perm (l₁ l₂ : List (String × Cmd))
    (h₁ : keyedByName l₁) (hp : l₁.Perm l₂) :
    sortByName (l₁.map Prod.snd) = sortByName (l₂.map Prod.snd) := by
  have hnames₁ : ((l₁.map Prod.snd).map Cmd.Name).Nodup := by
    rw [values_names_eq_keys l₁ h₁.2]
    exact h₁.1
  have hvperm : (l₁.map Prod.snd).Perm (l₂.map Prod.snd) := hp.map Prod.snd
  have hs₁ : (sortByName (l₁.map Prod.snd)).Pairwise nameLt := by
    refine pairwise_lt_of_le_nodup _ (sortByName_pairwise _) ?_
    exact (((sortByName_perm (l₁.map Prod.snd)).symm).map Cmd.Name).nodup hnames₁
  have hs₂ : (sortByName (l₂.map Prod.snd)).Pairwise nameLt := by
    refine pairwise_lt_of_le_nodup _ (sortByName_pairwise _) ?_
    exact ((hvperm.trans (sortByName_perm (l₂.map Prod.snd)).symm).map
      Cmd.Name).nodup hnames₁
  exact eq_of_perm_strictSorted _ _
    ((sortByName_perm _).trans (hvperm.trans (sortByName_perm _).symm)) hs₁ hs₂

/-- C6: starting from any node whose child maps satisfy the Go-map
invariant, after any sequences of `AddCmd`/`AddOptionalCmd`/`DeleteCmd`
operations, `Children` and `OptionalChildren` are sorted by name and are a
permutation of the entries of the respective child map; and whenever two
operation sequences produce the same map entries (as a permutation, i.e.
regardless of insertion order), the returned sorted sequences are
identical. -/
theorem c6_children_sorted_order_independent (c₀ : Cmd) (hwf : WF c₀)
    (ops ops' : List Op)
    (hch : (applyOps c₀ ops).children.Perm ((applyOps c₀ ops').children))
    (hoc : (applyOps c₀ ops).optionalChildren.Perm
      ((applyOps c₀ ops').optionalChildren)) :
    ((applyOps c₀ ops).Children.Pairwise nameLe ∧
     (applyOps c₀ ops).Children.Perm ((applyOps c₀ ops).children.map Prod.snd) ∧
     (applyOps c₀ ops).Children = (applyOps c₀ ops').Children) ∧
    ((applyOps c₀ ops).OptionalChildren.Pairwise nameLe ∧
     (applyOps c₀ ops).OptionalChildren.Perm
       ((applyOps c₀ ops).optionalChildren.map Prod.snd) ∧
     (applyOps c₀ ops).OptionalChildren = (applyOps c₀ ops').OptionalChildren) := by
  have hwf₁ := WF_applyOps ops c₀ hwf
  constructor
  · refine ⟨sortByName_pairwise _, sortByName_perm _, ?_⟩
    exact sort_values_eq_of_perm _ _ hwf₁.1 hch
  · refine ⟨sortByName_pairwise _, sortByName_perm _, ?_⟩
    exact sort_values_eq_of_perm _ _ hwf₁.2 hoc

def emptyCmd : Cmd := .mk "" [] "" "" none none [] []

def wcA : Cmd := .mk "a" [] "" "" none none [] []

def wcB : Cmd := .mk "b" [] "" "" none none [] []

lemma wfEmptyCmd : WF emptyCmd :=
  ⟨⟨List.nodup_nil, fun p hp => absurd hp (List.not_mem_nil p)⟩,
   ⟨List.nodup_nil, fun p hp => absurd hp (List.not_mem_nil p)⟩⟩

lemma permABchildren :
    (applyOps emptyCmd [.addC wcA, .addC wcB]).children.Perm
      ((applyOps emptyCmd [.addC wcB, .addC wcA]).children) :=
  List.Perm.swap ("b", wcB) ("a", wcA) []

lemma permABopt :
    (applyOps emptyCmd [.addC wcA, .addC wcB]).optionalChildren.Perm
      ((applyOps emptyCmd [.addC wcB, .addC wcA]).optionalChildren) :=
  List.Perm.nil

/-- Witness for C6: inserting "a" then "b" and inserting "b" then "a"
yield the same sorted `Children`. -/
theorem c6_witness :
    WF emptyCmd ∧
    (applyOps emptyCmd [.addC wcA, .addC wcB]).Children.Pairwise nameLe ∧
    (applyOps emptyCmd [.addC wcA, .addC wcB]).Children =
      (applyOps emptyCmd [.addC wcB, .addC wcA]).Children :=
  ⟨wfEmptyCmd,
   (c6_children_sorted_order_independent emptyCmd wfEmptyCmd
     [.addC wcA, .addC wcB] [.addC wcB, .addC wcA]
     permABchildren permABopt).1.1,
   (c6_children_sorted_order_independent emptyCmd wfEmptyCmd
     [.addC wcA, .addC wcB] [.addC wcB, .addC wcA]
     permABchildren permABopt).1.2.2⟩

/-- Witness for C10 at a concrete resolution with a captured optional
command. -/
theorem c10_witness :
    (rootC10.FindCmd ["m", "--o"]).2.1 ≠ [] ∧
    (rootC10.FindCmd ["m", "--o"]).1 ≠ none :=
  ⟨by
    rw [show (rootC10.FindCmd ["m", "--o"]).2.1 = [(optC10, "")] from rfl]
    simp,
   (c10_no_nil_deref rootC10 ["m", "--o"] "" []).1
    (by
      rw [show (rootC10.FindCmd ["m", "--o"]).2.1 = [(optC10, "")] from rfl]
      simp)⟩

end Ishell
